import Mathlib

/-!
Verification development for the block/transaction worker of a proof-of-work
blockchain node (files `src/network/worker.rs` and `src/types/block.rs`).

The embedding is shallow: hashes (`H256`) and addresses are modelled as `Nat`,
byte strings as `List Nat`, and the cryptographic primitives (SHA-256 over the
bincode encoding, Ed25519 verification, address derivation) are abstracted
into an `Env` record of pure functions, since a hash is a pure function of the
hashed value.  `HashMap`s become association lists with unique keys
(`insertA` replaces, `removeA` deletes).  The chain-storage collaborator
(`crate::blockchain::Blockchain`, not part of the worker sources) is modelled
from the spec's interface description.
-/

set_option autoImplicit false

namespace Worker

/-- Association-list lookup: first entry with the given key (HashMap lookup). -/
def lookupA {α : Type} (l : List (Nat × α)) (k : Nat) : Option α :=
  match l with
  | [] => none
  | p :: t => if p.1 = k then some p.2 else lookupA t k

/-- Key membership test (HashMap `contains_key`). -/
def containsA {α : Type} (l : List (Nat × α)) (k : Nat) : Bool :=
  (lookupA l k).isSome

/-- Remove every entry with the given key (HashMap `remove`; keys are unique). -/
def removeA {α : Type} (l : List (Nat × α)) (k : Nat) : List (Nat × α) :=
  l.filter (fun p => p.1 ≠ k)

/-- Insert, replacing any previous binding of the key (HashMap `insert`). -/
def insertA {α : Type} (l : List (Nat × α)) (k : Nat) (v : α) : List (Nat × α) :=
  (k, v) :: removeA l k

/-- `src/types/block.rs`: block header.  `parent`, `difficulty`, `merkle_root`
are `H256` values, modelled as `Nat` (the source compares them as big
fixed-width unsigned integers). -/
structure Header where
  parent : Nat
  nonce : Nat
  difficulty : Nat
  timestamp : Nat
  merkle_root : Nat
  length : Nat
  deriving DecidableEq, Repr

/-- `src/types/transaction.rs` is not among the worker sources; the shape is
taken from the spec's data model: `{sender, receiver, value, account_nonce}`.
Only `value` and `account_nonce` are read by the worker. -/
structure Transaction where
  sender : Nat
  receiver : Nat
  value : Nat
  account_nonce : Nat
  deriving DecidableEq, Repr

/-- `SignedTransaction = {t, signer_public_key, signature_vector}` (byte
vectors modelled as `List Nat`). -/
structure SignedTransaction where
  t : Transaction
  signer_public_key : List Nat
  signature_vector : List Nat
  deriving DecidableEq, Repr

/-- `src/types/block.rs`: block content, an ordered list of signed
transactions. -/
structure Content where
  transactions : List SignedTransaction
  deriving DecidableEq, Repr

/-- `src/types/block.rs`: a block is a header plus content; its hash is the
hash of its header. -/
structure Block where
  header : Header
  content : Content
  deriving DecidableEq, Repr

/-- Per-block account state snapshot: `Address -> (nonce, balance)` (the
worker reads `.0` as the nonce and `.1` as the balance). -/
structure State where
  state : List (Nat × (Nat × Nat))
  deriving DecidableEq, Repr

/-- Abstraction of the external pure primitives used by the worker:
`hashHeader` models `Header::hash` (SHA-256 of the bincode encoding, a pure
function of the header), `hashTx` models `SignedTransaction::hash`,
`verify` models the Ed25519 check of `worker.rs::verify` (a pure function of
the serialized transaction, the public key and the signature), `addrOf`
models `Address::from_public_key_bytes`, and `deriveState` models the state
snapshot derivation performed inside `Blockchain::insert` (modelled from the
spec: the snapshot of a block reflects its transactions applied to the
parent's snapshot; its exact arithmetic is outside the worker sources). -/
structure Env where
  hashHeader : Header → Nat
  hashTx : SignedTransaction → Nat
  verify : Transaction → List Nat → List Nat → Bool
  addrOf : List Nat → Nat
  deriveState : State → Block → State

/-- `Block::hash()` delegates to the header hash. -/
def hashB (env : Env) (b : Block) : Nat :=
  env.hashHeader b.header

/-- Modelled from the spec: the chain-storage collaborator
`crate::blockchain::Blockchain` is not among the worker sources; the spec
describes it as a map from block hash to block (`hash_map`), a map from block
hash to its state snapshot (`state_map`), and canonical-tip bookkeeping under
the longest-chain rule (`tip`, with per-block heights). -/
structure Blockchain where
  hash_map : List (Nat × Block)
  state_map : List (Nat × State)
  height_map : List (Nat × Nat)
  tip : Nat
  tipHeight : Nat
  deriving DecidableEq, Repr

/-- Mempool: map from transaction hash to pending signed transaction. -/
structure Mempool where
  hash_map : List (Nat × SignedTransaction)
  deriving DecidableEq, Repr

/-- `worker.rs`: per-worker orphan buffer, a map from a parent hash to the
block waiting on it. -/
structure OrphanBuffer where
  hash_map : List (Nat × Block)
  deriving DecidableEq, Repr

/-- Modelled from the spec: `Blockchain::insert` adds the block keyed by its
hash, derives and stores its state snapshot keyed by its hash, and updates
the canonical-tip bookkeeping (longest-chain rule, height = parent height + 1). -/
def chainInsert (env : Env) (c : Blockchain) (b : Block) : Blockchain :=
  let h := hashB env b
  let parentSnap := (lookupA c.state_map b.header.parent).getD ⟨[]⟩
  let snap := env.deriveState parentSnap b
  let newHeight := ((lookupA c.height_map b.header.parent).getD 0) + 1
  { hash_map := insertA c.hash_map h b
    state_map := insertA c.state_map h snap
    height_map := insertA c.height_map h newHeight
    tip := if c.tipHeight < newHeight then h else c.tip
    tipHeight := if c.tipHeight < newHeight then newHeight else c.tipHeight }

/-- The shared node state seen by one worker: the chain and mempool (shared
structures) plus this worker's own orphan buffer. -/
structure NodeState where
  chain : Blockchain
  mempool : Mempool
  obuf : OrphanBuffer
  deriving DecidableEq, Repr

/-- `worker.rs` lines 144-167: validity of one signed transaction against a
state snapshot — the Ed25519 signature must verify, and the sender (derived
from the signer public key) must exist in the snapshot with
`¬(value > balance ∨ nonce ≠ snapshot_nonce + 1)`. -/
def txCheck (env : Env) (state_copy : State) (stx : SignedTransaction) : Bool :=
  if ¬ env.verify stx.t stx.signer_public_key stx.signature_vector then false
  else
    let sender := env.addrOf stx.signer_public_key
    let amount := stx.t.value
    let nonce := stx.t.account_nonce
    match lookupA state_copy.state sender with
    | some p => ¬ (amount > p.2 ∨ nonce ≠ p.1 + 1)
    | none => false

/-- `worker.rs` lines 174-181: after inserting a block, remove the block's
transactions from the mempool (by their hash, if present). -/
def removeBlockTxs (env : Env) (m : Mempool) (txs : List SignedTransaction) : Mempool :=
  txs.foldl
    (fun m stx =>
      if containsA m.hash_map (env.hashTx stx) then ⟨removeA m.hash_map (env.hashTx stx)⟩
      else m)
    m

/-- `worker.rs` lines 186-195: iterate over a clone of the mempool and remove
every transaction whose sender exists in the tip's state snapshot with a
snapshot nonce strictly greater than the transaction's nonce. -/
def evictLoop (env : Env) (tipState : State) (clone : List (Nat × SignedTransaction))
    (m : Mempool) : Mempool :=
  clone.foldl
    (fun acc p =>
      let sender := env.addrOf p.2.signer_public_key
      let tx_nonce := p.2.t.account_nonce
      match lookupA tipState.state sender with
      | some q => if tx_nonce < q.1 then ⟨removeA acc.hash_map p.1⟩ else acc
      | none => acc)
    m

/-- The mempool update of `worker.rs` lines 183-195: the clone iterated over
is the mempool as it stands after the block-transaction removal. -/
def evictMempool (env : Env) (tipState : State) (m : Mempool) : Mempool :=
  evictLoop env tipState m.hash_map m

/-- One iteration step of the orphan-resolution while loop, fuelled (the loop
of `worker.rs` lines 205-216 removes one buffer entry per iteration, so the
buffer size at entry is enough fuel): while the current hash is a key of the
orphan buffer, insert the buffered child into the blockchain (no signature or
state validation is re-run), append its hash to the accepted hashes, remove
the entry, and advance the current hash to the child's hash. -/
def resolveGo (env : Env) : Nat → Blockchain → OrphanBuffer → Nat → List Nat →
    Blockchain × OrphanBuffer × List Nat
  | 0, c, ob, _, acc => (c, ob, acc)
  | fuel + 1, c, ob, ph, acc =>
    match lookupA ob.hash_map ph with
    | none => (c, ob, acc)
    | some child =>
        resolveGo env fuel (chainInsert env c child) ⟨removeA ob.hash_map ph⟩
          (hashB env child) (acc ++ [hashB env child])

/-- `worker.rs` lines 205-216: the orphan-resolution while loop. -/
def resolveOrphans (env : Env) (c : Blockchain) (ob : OrphanBuffer) (ph : Nat)
    (acc : List Nat) : Blockchain × OrphanBuffer × List Nat :=
  resolveGo env ob.hash_map.length c ob ph acc

/-- Accumulator of the `Blocks` handler: the three state components plus the
`new_hashes` (to broadcast) and `parent_vec` (to request) lists. -/
structure BState where
  chain : Blockchain
  mempool : Mempool
  obuf : OrphanBuffer
  new_hashes : List Nat
  parent_vec : List Nat
  deriving DecidableEq, Repr

/-- `worker.rs` lines 122-224: processing of one block of a `Blocks` message.
`pow_passed = hash(header) ≤ difficulty`; if the block is not stored and PoW
passes: when the parent is stored, validate all transactions against the
parent's snapshot and on success insert the block, record its hash, update
the mempool and run orphan resolution (an invalid transaction skips the whole
block); when the parent is not stored the source falls through to the orphan
resolution loop without buffering the block.  Otherwise, if PoW passes (the
block is already stored), the block is put into the orphan buffer keyed by
its parent hash and the parent hash is recorded in `parent_vec`. -/
def processBlock (env : Env) (s : BState) (b : Block) : BState :=
  let h := hashB env b
  let pow_passed : Bool := decide (h ≤ b.header.difficulty)
  if (!containsA s.chain.hash_map h) && pow_passed then
    if containsA s.chain.hash_map b.header.parent then
      let state_copy := (lookupA s.chain.state_map b.header.parent).getD ⟨[]⟩
      if b.content.transactions.all (txCheck env state_copy) then
        let chain1 := chainInsert env s.chain b
        let nh1 := s.new_hashes ++ [h]
        let m1 := removeBlockTxs env s.mempool b.content.transactions
        let tipState := (lookupA chain1.state_map chain1.tip).getD ⟨[]⟩
        let m2 := evictMempool env tipState m1
        let r := resolveOrphans env chain1 s.obuf h nh1
        ⟨r.1, m2, r.2.1, r.2.2, s.parent_vec⟩
      else s
    else
      let r := resolveOrphans env s.chain s.obuf h s.new_hashes
      ⟨r.1, s.mempool, r.2.1, r.2.2, s.parent_vec⟩
  else if pow_passed then
    ⟨s.chain, s.mempool, ⟨insertA s.obuf.hash_map b.header.parent b⟩,
      s.new_hashes, s.parent_vec ++ [b.header.parent]⟩
  else s

/-- `worker.rs` lines 118-239: the `Blocks` handler folds `processBlock` over
the received blocks starting from empty `new_hashes` and `parent_vec`. -/
def handleBlocks (env : Env) (ns : NodeState) (blockvec : List Block) : BState :=
  blockvec.foldl (processBlock env) ⟨ns.chain, ns.mempool, ns.obuf, [], []⟩

/-- `worker.rs` lines 87-101: the `NewBlockHashes` handler collects the
received hashes that are not keys of the blockchain's stored-block map. -/
def handleNewBlockHashes (c : Blockchain) (hashvec : List Nat) : List Nat :=
  hashvec.foldl (fun acc h => if !containsA c.hash_map h then acc ++ [h] else acc) []

/-- `worker.rs` lines 98-100: the `GetBlocks(new_hashes)` reply is sent only
when the collected list is non-empty. -/
def newBlockHashesReply (c : Blockchain) (hashvec : List Nat) : Option (List Nat) :=
  let nh := handleNewBlockHashes c hashvec
  if nh.length > 0 then some nh else none

/-- `worker.rs` lines 102-116: the `GetBlocks` handler collects the stored
blocks among the requested hashes. -/
def handleGetBlocks (c : Blockchain) (hashvec : List Nat) : List Block :=
  hashvec.foldl
    (fun acc h =>
      match lookupA c.hash_map h with
      | some b => acc ++ [b]
      | none => acc)
    []

/-- `worker.rs` lines 241-256: the `NewTransactionHashes` handler collects the
received hashes not present in the mempool. -/
def handleNewTxHashes (m : Mempool) (trans_hashes : List Nat) : List Nat :=
  trans_hashes.foldl (fun acc h => if !containsA m.hash_map h then acc ++ [h] else acc) []

/-- `worker.rs` lines 257-271: the `GetTransactions` handler collects the
pooled transactions among the requested hashes. -/
def handleGetTxs (m : Mempool) (trans_vec : List Nat) : List SignedTransaction :=
  trans_vec.foldl
    (fun acc h =>
      match lookupA m.hash_map h with
      | some tx => acc ++ [tx]
      | none => acc)
    []

/-- `worker.rs` lines 276-294: the loop body of the `Transactions` handler —
check the Ed25519 signature; if it verifies and the transaction's hash is not
yet a mempool key, record the hash and insert the transaction keyed by its
own hash; otherwise leave the mempool unchanged. -/
def transStep (env : Env) (acc : Mempool × List Nat) (stx : SignedTransaction) :
    Mempool × List Nat :=
  let signature_is_valid := env.verify stx.t stx.signer_public_key stx.signature_vector
  let h := env.hashTx stx
  if (!containsA acc.1.hash_map h) && signature_is_valid then
    (⟨insertA acc.1.hash_map h stx⟩, acc.2 ++ [h])
  else acc

/-- `worker.rs` lines 272-298: the `Transactions` handler folds the per-
transaction step over the batch.  Returns the final mempool together with
the list of newly recorded hashes. -/
def handleTransactions (env : Env) (m : Mempool) (txs : List SignedTransaction) :
    Mempool × List Nat :=
  txs.foldl (transStep env) (m, [])

/-- `worker.rs` lines 295-297: the `NewTransactionHashes` broadcast is emitted
only when some transaction was newly inserted. -/
def transactionsBroadcast (env : Env) (m : Mempool) (txs : List SignedTransaction) :
    Option (List Nat) :=
  let nh := (handleTransactions env m txs).2
  if nh.length > 0 then some nh else none

/-- The eight-variant message vocabulary of `network/message.rs` as consumed
by the dispatch loop. -/
inductive Msg where
  | Ping : String → Msg
  | Pong : String → Msg
  | NewBlockHashes : List Nat → Msg
  | GetBlocks : List Nat → Msg
  | Blocks : List Block → Msg
  | NewTransactionHashes : List Nat → Msg
  | GetTransactions : List Nat → Msg
  | Transactions : List SignedTransaction → Msg

/-- `worker.rs` lines 79-299: the state effect of dispatching one message.
Only the `Blocks` and `Transactions` handlers mutate the node state; the
other six handlers read it or ignore it. -/
def step (env : Env) (ns : NodeState) : Msg → NodeState
  | Msg.Blocks blockvec =>
      let r := handleBlocks env ns blockvec
      ⟨r.chain, r.mempool, r.obuf⟩
  | Msg.Transactions txs =>
      { ns with mempool := (handleTransactions env ns.mempool txs).1 }
  | _ => ns

/-- A worker run: fold the dispatch step over a message sequence. -/
def runMsgs (env : Env) (ns : NodeState) (msgs : List Msg) : NodeState :=
  msgs.foldl (step env) ns

/-! ### Association-list lemmas -/

theorem mem_removeA {α : Type} {l : List (Nat × α)} {k : Nat} {p : Nat × α} :
    p ∈ removeA l k ↔ p ∈ l ∧ p.1 ≠ k := by
  simp [removeA, List.mem_filter]

theorem containsA_iff_exists {α : Type} {l : List (Nat × α)} {k : Nat} :
    containsA l k = true ↔ ∃ v, (k, v) ∈ l := by
  induction l with
  | nil => simp [containsA, lookupA]
  | cons q t ih =>
      rcases q with ⟨a, b⟩
      by_cases hq : a = k
      · subst hq
        constructor
        · intro _
          exact ⟨b, List.mem_cons_self _ _⟩
        · intro _
          simp [containsA, lookupA]
      · constructor
        · intro h
          have ht : containsA t k = true := by
            simpa [containsA, lookupA, hq] using h
          rcases ih.mp ht with ⟨v, hv⟩
          exact ⟨v, List.mem_cons_of_mem _ hv⟩
        · rintro ⟨v, hv⟩
          rcases List.mem_cons.mp hv with h | h
          · cases h
            exact absurd rfl hq
          · simp only [containsA, lookupA, if_neg hq]
            exact ih.mpr ⟨v, h⟩

theorem containsA_eq_false_iff {α : Type} {l : List (Nat × α)} {k : Nat} :
    containsA l k = false ↔ ∀ v, (k, v) ∉ l := by
  rw [← Bool.not_eq_true, containsA_iff_exists]
  push_neg
  exact Iff.rfl

theorem lookupA_mem {α : Type} {l : List (Nat × α)} {k : Nat} {v : α}
    (h : lookupA l k = some v) : (k, v) ∈ l := by
  induction l with
  | nil => simp [lookupA] at h
  | cons q t ih =>
      rcases q with ⟨a, b⟩
      by_cases hq : a = k
      · subst hq
        rw [lookupA, if_pos rfl] at h
        cases h
        exact List.mem_cons_self _ _
      · rw [lookupA, if_neg hq] at h
        exact List.mem_cons_of_mem _ (ih h)

theorem length_removeA_lt {α : Type} {l : List (Nat × α)} {k : Nat} {v : α}
    (h : lookupA l k = some v) : (removeA l k).length < l.length := by
  have hmem : (k, v) ∈ l := lookupA_mem h
  apply List.length_filter_lt_length_iff_exists.mpr
  exact ⟨(k, v), hmem, by simp⟩

theorem removeA_of_not_contains {α : Type} {l : List (Nat × α)} {k : Nat}
    (h : containsA l k = false) : removeA l k = l := by
  rw [containsA_eq_false_iff] at h
  apply List.filter_eq_self.mpr
  intro p hp
  simp only [ne_eq, decide_eq_true_eq]
  intro hk
  exact h p.2 (by rw [← hk]; exact hp)

theorem containsA_insertA_self {α : Type} {l : List (Nat × α)} {k : Nat} {v : α} :
    containsA (insertA l k v) k = true := by
  simp [containsA, insertA, lookupA]

theorem containsA_removeA {α : Type} {l : List (Nat × α)} {k k' : Nat}
    (h : k' ≠ k) : containsA (removeA l k) k' = containsA l k' := by
  rw [Bool.eq_iff_iff, containsA_iff_exists, containsA_iff_exists]
  constructor
  · rintro ⟨v, hv⟩
    exact ⟨v, (mem_removeA.mp hv).1⟩
  · rintro ⟨v, hv⟩
    exact ⟨v, mem_removeA.mpr ⟨hv, h⟩⟩

theorem containsA_insertA_of {α : Type} {l : List (Nat × α)} {k k' : Nat} {v : α}
    (h : containsA l k' = true) : containsA (insertA l k v) k' = true := by
  by_cases hk : k' = k
  · subst hk
    exact containsA_insertA_self
  · rw [containsA_iff_exists] at h ⊢
    rcases h with ⟨w, hw⟩
    exact ⟨w, by right; exact mem_removeA.mpr ⟨hw, hk⟩⟩

theorem containsA_cons_iff {α : Type} {l : List (Nat × α)} {k h : Nat} {v : α} :
    containsA ((k, v) :: l) h = true ↔ h = k ∨ containsA l h = true := by
  unfold containsA
  by_cases hk : k = h
  · subst hk
    simp [lookupA]
  · have hl : lookupA ((k, v) :: l) h = lookupA l h := by
      simp [lookupA, hk]
    rw [hl]
    simp [show ¬(h = k) from fun hh => hk hh.symm]

theorem insertA_of_not_contains {α : Type} {l : List (Nat × α)} {k : Nat} {v : α}
    (h : containsA l k = false) : insertA l k v = (k, v) :: l := by
  unfold insertA
  rw [removeA_of_not_contains h]

/-! ### Orphan-resolution loop lemmas -/

theorem resolveGo_fuel_irrel (env : Env) :
    ∀ fuel1 fuel2 (c : Blockchain) (ob : OrphanBuffer) (ph : Nat) (acc : List Nat),
      ob.hash_map.length ≤ fuel1 → ob.hash_map.length ≤ fuel2 →
      resolveGo env fuel1 c ob ph acc = resolveGo env fuel2 c ob ph acc := by
  intro fuel1
  induction fuel1 with
  | zero =>
      intro fuel2 c ob ph acc h1 _
      have hnil : ob.hash_map = [] := List.eq_nil_of_length_eq_zero (Nat.le_zero.mp h1)
      have hlook : lookupA ob.hash_map ph = none := by rw [hnil]; rfl
      cases fuel2 with
      | zero => rfl
      | succ g => simp [resolveGo, hlook]
  | succ f ih =>
      intro fuel2 c ob ph acc h1 h2
      cases fuel2 with
      | zero =>
          have hnil : ob.hash_map = [] := List.eq_nil_of_length_eq_zero (Nat.le_zero.mp h2)
          have hlook : lookupA ob.hash_map ph = none := by rw [hnil]; rfl
          simp [resolveGo, hlook]
      | succ g =>
          cases hlook : lookupA ob.hash_map ph with
          | none => simp [resolveGo, hlook]
          | some child =>
              simp only [resolveGo, hlook]
              have hlt := length_removeA_lt (l := ob.hash_map) hlook
              exact ih g _ _ _ _ (Nat.le_of_lt_succ (Nat.lt_of_lt_of_le hlt h1))
                (Nat.le_of_lt_succ (Nat.lt_of_lt_of_le hlt h2))

theorem resolveOrphans_none (env : Env) {c : Blockchain} {ob : OrphanBuffer} {ph : Nat}
    {acc : List Nat} (h : lookupA ob.hash_map ph = none) :
    resolveOrphans env c ob ph acc = (c, ob, acc) := by
  unfold resolveOrphans
  cases hn : ob.hash_map.length with
  | zero => rfl
  | succ n => simp [resolveGo, h]

theorem resolveOrphans_some (env : Env) {c : Blockchain} {ob : OrphanBuffer} {ph : Nat}
    {acc : List Nat} {child : Block} (h : lookupA ob.hash_map ph = some child) :
    resolveOrphans env c ob ph acc =
      resolveOrphans env (chainInsert env c child) ⟨removeA ob.hash_map ph⟩
        (hashB env child) (acc ++ [hashB env child]) := by
  have hlt := length_removeA_lt (l := ob.hash_map) h
  have hpos : 0 < ob.hash_map.length := Nat.pos_of_ne_zero (by
    intro h0
    rw [List.eq_nil_of_length_eq_zero h0] at h
    cases h)
  conv_lhs => rw [resolveOrphans]
  rcases Nat.exists_eq_add_of_lt hpos with ⟨n, hn⟩
  rw [show ob.hash_map.length = n + 1 by omega]
  simp only [resolveGo, h]
  apply resolveGo_fuel_irrel
  · have : (removeA ob.hash_map ph).length < n + 1 := by omega
    exact Nat.le_of_lt_succ this
  · exact Nat.le_refl _

theorem resolveGo_chain_mono (env : Env) :
    ∀ (fuel : Nat) (c : Blockchain) (ob : OrphanBuffer) (ph : Nat) (acc : List Nat)
      (h' : Nat), containsA c.hash_map h' = true →
      containsA (resolveGo env fuel c ob ph acc).1.hash_map h' = true := by
  intro fuel
  induction fuel with
  | zero => intro c ob ph acc h' hc; exact hc
  | succ f ih =>
      intro c ob ph acc h' hc
      cases hlook : lookupA ob.hash_map ph with
      | none => simpa [resolveGo, hlook] using hc
      | some child =>
          simp only [resolveGo, hlook]
          exact ih _ _ _ _ _ (containsA_insertA_of hc)

theorem resolveOrphans_chain_mono (env : Env) {c : Blockchain} {ob : OrphanBuffer}
    {ph : Nat} {acc : List Nat} {h' : Nat} (hc : containsA c.hash_map h' = true) :
    containsA (resolveOrphans env c ob ph acc).1.hash_map h' = true :=
  resolveGo_chain_mono env _ c ob ph acc h' hc

/-! ### Generic fold lemmas -/

theorem foldl_push_filter {α : Type} (p : α → Bool) :
    ∀ (l acc : List α),
      l.foldl (fun acc h => if p h then acc ++ [h] else acc) acc = acc ++ l.filter p := by
  intro l
  induction l with
  | nil => intro acc; simp
  | cons x t ih =>
      intro acc
      by_cases hx : p x
      · simp [List.foldl_cons, hx, ih, List.filter_cons]
      · simp [List.foldl_cons, hx, ih, List.filter_cons]

/-! ### Concrete instantiation used by the closed witness theorems -/

/-- A concrete instantiation of the abstract primitives: headers hash to
`nonce + 100`, a signature verifies exactly when it is `[1]`, the address of
a public key is its first byte, and the snapshot derivation is the identity
(any pure derivation satisfies the spec's interface). -/
def env0 : Env where
  hashHeader := fun h => h.nonce + 100
  hashTx := fun stx => stx.t.sender * 1000 + stx.t.account_nonce * 10 + stx.t.value
  verify := fun _ _ sig => decide (sig = [1])
  addrOf := fun pk => pk.headD 0
  deriveState := fun s _ => s

/-- Concrete genesis block: hash `100` under `env0`. -/
def g0 : Block :=
  ⟨⟨0, 0, 1000, 0, 0, 0⟩, ⟨[]⟩⟩

/-- Concrete genesis snapshot: account `7` has nonce `5` and balance `50`. -/
def snap0 : State := ⟨[(7, (5, 50))]⟩

/-- Concrete chain holding only the genesis block. -/
def chain0 : Blockchain :=
  ⟨[(100, g0)], [(100, snap0)], [(100, 1)], 100, 1⟩

/-- Concrete node state: genesis chain, empty mempool, empty orphan buffer. -/
def ns0 : NodeState := ⟨chain0, ⟨[]⟩, ⟨[]⟩⟩

/-- A block failing proof of work under `env0`: hash `101 > difficulty 3`. -/
def bBad : Block :=
  ⟨⟨100, 1, 3, 0, 0, 1⟩, ⟨[]⟩⟩

/-- A PoW-valid child of genesis (hash `101 ≤ difficulty 1000`, empty
transaction list). -/
def bGood : Block :=
  ⟨⟨100, 1, 1000, 0, 0, 1⟩, ⟨[]⟩⟩

/-- A PoW-valid block whose parent (hash `999`) is unknown to `chain0`. -/
def bOrphan : Block :=
  ⟨⟨999, 2, 1000, 0, 0, 2⟩, ⟨[]⟩⟩

/-- A PoW-valid child of `bGood` (parent hash `101`, own hash `104`). -/
def bChild : Block :=
  ⟨⟨101, 4, 1000, 0, 0, 2⟩, ⟨[]⟩⟩

/-- A signed transaction from account `7` (nonce `6 = 5 + 1`, value
`10 ≤ 50`) that verifies under `env0`. -/
def stx1 : SignedTransaction :=
  ⟨⟨7, 8, 10, 6⟩, [7], [1]⟩

/-- A PoW-valid child of genesis carrying `stx1` (own hash `103`). -/
def bTx : Block :=
  ⟨⟨100, 3, 1000, 0, 0, 1⟩, ⟨[stx1]⟩⟩

/-- Node state whose orphan buffer holds `bChild`, keyed by its parent hash
`101` (the hash of `bGood`). -/
def nsObuf : NodeState := ⟨chain0, ⟨[]⟩, ⟨[(101, bChild)]⟩⟩

/-- A pooled transaction of account `7` with nonce `3 < 5`: stale under the
tip snapshot, so eviction must remove it. -/
def txStale : SignedTransaction :=
  ⟨⟨7, 8, 1, 3⟩, [7], [1]⟩

/-- A pooled transaction of account `7` with nonce `9 ≥ 5`: not stale, so
eviction must keep it. -/
def txFresh : SignedTransaction :=
  ⟨⟨7, 8, 1, 9⟩, [7], [1]⟩

/-- Node state whose mempool holds `txStale`, `txFresh` and `stx1` (the
transaction confirmed by `bTx`), each keyed by its `env0` hash. -/
def nsC6 : NodeState :=
  ⟨chain0, ⟨[(7031, txStale), (7091, txFresh), (7070, stx1)]⟩, ⟨[]⟩⟩

/-! ### Claim theorems -/

theorem processBlock_pow_fail (env : Env) (s : BState) (b : Block)
    (hpow : b.header.difficulty < hashB env b) : processBlock env s b = s := by
  have h1 : decide (hashB env b ≤ b.header.difficulty) = false := by
    simp [Nat.not_le, hpow]
  unfold processBlock
  simp [h1]

/-- C1: a block whose header hash exceeds its difficulty is dropped by the
`Blocks` handler: the chain, mempool and orphan buffer, and the `new_hashes`
and `parent_vec` outbound lists, are exactly as if the block had not been in
the message at all. -/
theorem blocks_pow_fail_dropped (env : Env) (ns : NodeState) (l1 l2 : List Block)
    (b : Block) (hpow : b.header.difficulty < hashB env b) :
    handleBlocks env ns (l1 ++ b :: l2) = handleBlocks env ns (l1 ++ l2) := by
  unfold handleBlocks
  rw [List.foldl_append, List.foldl_append, List.foldl_cons,
    processBlock_pow_fail env _ b hpow]

/-- Witness for C1 at a concrete PoW-failing block. -/
theorem blocks_pow_fail_dropped_witness :
    bBad.header.difficulty < hashB env0 bBad ∧
      handleBlocks env0 ns0 ([bGood] ++ bBad :: []) = handleBlocks env0 ns0 ([bGood] ++ []) :=
  ⟨by decide, blocks_pow_fail_dropped env0 ns0 [bGood] [] bBad (by decide)⟩

/-- C2 evaluation at the failing input: a PoW-valid block that is not stored
and whose parent is not stored is simply dropped by the handler — contrary to
the claim, it is not inserted into the orphan buffer and its parent hash is
not recorded for the `GetBlocks` request (the source's buffering branch,
`worker.rs` line 219, is reachable only for blocks already stored). -/
theorem blocks_unknown_parent_not_buffered_cex :
    (hashB env0 bOrphan ≤ bOrphan.header.difficulty) ∧
      containsA chain0.hash_map (hashB env0 bOrphan) = false ∧
      containsA chain0.hash_map bOrphan.header.parent = false ∧
      (handleBlocks env0 ns0 [bOrphan]).obuf = ⟨[]⟩ ∧
      (handleBlocks env0 ns0 [bOrphan]).parent_vec = [] ∧
      (handleBlocks env0 ns0 [bOrphan]).chain = chain0 ∧
      (handleBlocks env0 ns0 [bOrphan]).mempool = ns0.mempool := by
  decide

theorem nodup_keys_eq {α : Type} {l : List (Nat × α)} (hnd : (l.map Prod.fst).Nodup)
    {p q : Nat × α} (hp : p ∈ l) (hq : q ∈ l) (hk : p.1 = q.1) : p = q := by
  induction l with
  | nil => cases hp
  | cons x t ih =>
      rw [List.map_cons, List.nodup_cons] at hnd
      rcases List.mem_cons.mp hp with hpx | hpt
      · rcases List.mem_cons.mp hq with hqx | hqt
        · rw [hpx, hqx]
        · exfalso
          apply hnd.1
          rw [← hpx, hk]
          exact List.mem_map_of_mem Prod.fst hqt
      · rcases List.mem_cons.mp hq with hqx | hqt
        · exfalso
          apply hnd.1
          rw [← hqx, ← hk]
          exact List.mem_map_of_mem Prod.fst hpt
        · exact ih hnd.2 hpt hqt

theorem mem_removeBlockTxs (env : Env) :
    ∀ (txs : List SignedTransaction) (m : Mempool) (p : Nat × SignedTransaction),
      p ∈ (removeBlockTxs env m txs).hash_map ↔
        p ∈ m.hash_map ∧ ∀ stx ∈ txs, env.hashTx stx ≠ p.1 := by
  intro txs
  induction txs with
  | nil =>
      intro m p
      simp [removeBlockTxs]
  | cons stx t ih =>
      intro m p
      have hstep : removeBlockTxs env m (stx :: t) =
          removeBlockTxs env
            (if containsA m.hash_map (env.hashTx stx) then
              ⟨removeA m.hash_map (env.hashTx stx)⟩ else m) t := rfl
      rw [hstep, List.forall_mem_cons]
      by_cases hc : containsA m.hash_map (env.hashTx stx) = true
      · rw [if_pos hc, ih]
        show p ∈ removeA m.hash_map (env.hashTx stx) ∧ _ ↔ _
        rw [mem_removeA]
        constructor
        · rintro ⟨⟨hm, hne⟩, hall⟩
          exact ⟨hm, Ne.symm hne, hall⟩
        · rintro ⟨hm, hne, hall⟩
          exact ⟨⟨hm, Ne.symm hne⟩, hall⟩
      · rw [if_neg hc, ih]
        constructor
        · rintro ⟨hm, hall⟩
          refine ⟨hm, ?_, hall⟩
          intro hkey
          rw [Bool.not_eq_true, containsA_eq_false_iff] at hc
          exact hc p.2 (by rw [hkey]; exact hm)
        · rintro ⟨hm, _, hall⟩
          exact ⟨hm, hall⟩

theorem mem_evictLoop (env : Env) (tipState : State) :
    ∀ (clone : List (Nat × SignedTransaction)) (m : Mempool) (p : Nat × SignedTransaction),
      p ∈ (evictLoop env tipState clone m).hash_map ↔
        p ∈ m.hash_map ∧
          ∀ q ∈ clone, q.1 = p.1 →
            ∀ pr, lookupA tipState.state (env.addrOf q.2.signer_public_key) = some pr →
              ¬ (q.2.t.account_nonce < pr.1) := by
  intro clone
  induction clone with
  | nil =>
      intro m p
      simp [evictLoop]
  | cons q rest ih =>
      intro m p
      have hstep : evictLoop env tipState (q :: rest) m =
          evictLoop env tipState rest
            (match lookupA tipState.state (env.addrOf q.2.signer_public_key) with
             | some pr => if q.2.t.account_nonce < pr.1 then ⟨removeA m.hash_map q.1⟩ else m
             | none => m) := rfl
      rw [hstep, List.forall_mem_cons]
      cases hl : lookupA tipState.state (env.addrOf q.2.signer_public_key) with
      | none =>
          simp only [hl]
          rw [ih]
          constructor
          · rintro ⟨hm, hall⟩
            exact ⟨hm, ⟨fun _ pr hpr => (nomatch hpr), hall⟩⟩
          · rintro ⟨hm, -, hall⟩
            exact ⟨hm, hall⟩
      | some pr =>
          simp only [hl]
          by_cases hn : q.2.t.account_nonce < pr.1
          · rw [if_pos hn, ih]
            show p ∈ removeA m.hash_map q.1 ∧ _ ↔ _
            rw [mem_removeA]
            constructor
            · rintro ⟨⟨hm, hne⟩, hall⟩
              refine ⟨hm, ⟨?_, hall⟩⟩
              intro hkey
              exact absurd hkey.symm hne
            · rintro ⟨hm, hq, hall⟩
              refine ⟨⟨hm, ?_⟩, hall⟩
              intro hkey
              exact hq hkey.symm pr rfl hn
          · rw [if_neg hn, ih]
            constructor
            · rintro ⟨hm, hall⟩
              refine ⟨hm, ⟨fun _ pr' hpr' => ?_, hall⟩⟩
              cases hpr'
              exact hn
            · rintro ⟨hm, -, hall⟩
              exact ⟨hm, hall⟩

/-- The transaction-validity conditions exactly as the claim states them: the
Ed25519 signature verifies, the sender derived from the signer public key
exists in the snapshot, the transaction's `account_nonce` equals the
snapshot nonce plus one, and the value does not exceed the snapshot balance.
Stated from the spec's words, to be compared with the source's `txCheck`. -/
def specTxValid (env : Env) (snap : State) (stx : SignedTransaction) : Prop :=
  env.verify stx.t stx.signer_public_key stx.signature_vector = true ∧
  ∃ pr, lookupA snap.state (env.addrOf stx.signer_public_key) = some pr ∧
    stx.t.account_nonce = pr.1 + 1 ∧ stx.t.value ≤ pr.2

theorem txCheck_iff_spec (env : Env) (snap : State) (stx : SignedTransaction) :
    txCheck env snap stx = true ↔ specTxValid env snap stx := by
  unfold txCheck specTxValid
  by_cases hv : env.verify stx.t stx.signer_public_key stx.signature_vector = true
  · cases hl : lookupA snap.state (env.addrOf stx.signer_public_key) with
    | none =>
        rw [if_neg (by simp [hv])]
        simp only [hl]
        simp [hv]
    | some p =>
        rw [if_neg (by simp [hv])]
        simp only [hl]
        rw [decide_eq_true_eq]
        push_neg
        simp only [hv, true_and, Option.some.injEq]
        constructor
        · rintro ⟨hval, hnonce⟩
          exact ⟨p, rfl, hnonce, hval⟩
        · rintro ⟨pr, hpr, hnonce, hval⟩
          subst hpr
          exact ⟨hval, hnonce⟩
  · rw [if_pos (by simp [hv])]
    simp [hv]

theorem handleBlocks_single (env : Env) (ns : NodeState) (b : Block) :
    handleBlocks env ns [b] = processBlock env ⟨ns.chain, ns.mempool, ns.obuf, [], []⟩ b :=
  rfl

theorem processBlock_admit_eq (env : Env) (s : BState) (b : Block)
    (hpow : hashB env b ≤ b.header.difficulty)
    (hnew : containsA s.chain.hash_map (hashB env b) = false)
    (hpar : containsA s.chain.hash_map b.header.parent = true)
    (hall : b.content.transactions.all
      (txCheck env ((lookupA s.chain.state_map b.header.parent).getD ⟨[]⟩)) = true) :
    processBlock env s b =
      ⟨(resolveOrphans env (chainInsert env s.chain b) s.obuf (hashB env b)
          (s.new_hashes ++ [hashB env b])).1,
        evictMempool env
          ((lookupA (chainInsert env s.chain b).state_map
            (chainInsert env s.chain b).tip).getD ⟨[]⟩)
          (removeBlockTxs env s.mempool b.content.transactions),
        (resolveOrphans env (chainInsert env s.chain b) s.obuf (hashB env b)
          (s.new_hashes ++ [hashB env b])).2.1,
        (resolveOrphans env (chainInsert env s.chain b) s.obuf (hashB env b)
          (s.new_hashes ++ [hashB env b])).2.2,
        s.parent_vec⟩ := by
  unfold processBlock
  simp [hnew, hpow, hpar, hall]

theorem processBlock_invalid_eq (env : Env) (s : BState) (b : Block)
    (hpow : hashB env b ≤ b.header.difficulty)
    (hnew : containsA s.chain.hash_map (hashB env b) = false)
    (hpar : containsA s.chain.hash_map b.header.parent = true)
    (hall : b.content.transactions.all
      (txCheck env ((lookupA s.chain.state_map b.header.parent).getD ⟨[]⟩)) = false) :
    processBlock env s b = s := by
  unfold processBlock
  simp [hnew, hpow, hpar, hall]

theorem processBlock_noparent_eq (env : Env) (s : BState) (b : Block)
    (hpow : hashB env b ≤ b.header.difficulty)
    (hnew : containsA s.chain.hash_map (hashB env b) = false)
    (hpar : containsA s.chain.hash_map b.header.parent = false) :
    processBlock env s b =
      ⟨(resolveOrphans env s.chain s.obuf (hashB env b) s.new_hashes).1, s.mempool,
        (resolveOrphans env s.chain s.obuf (hashB env b) s.new_hashes).2.1,
        (resolveOrphans env s.chain s.obuf (hashB env b) s.new_hashes).2.2,
        s.parent_vec⟩ := by
  unfold processBlock
  simp [hnew, hpow, hpar]

theorem processBlock_dup_eq (env : Env) (s : BState) (b : Block)
    (hpow : hashB env b ≤ b.header.difficulty)
    (hstored : containsA s.chain.hash_map (hashB env b) = true) :
    processBlock env s b =
      ⟨s.chain, s.mempool, ⟨insertA s.obuf.hash_map b.header.parent b⟩,
        s.new_hashes, s.parent_vec ++ [b.header.parent]⟩ := by
  unfold processBlock
  simp [hstored, hpow]

/-- C3: for a PoW-valid, not-yet-stored block whose parent is stored, the
`Blocks` handler inserts the block if and only if every signed transaction
in it satisfies the claim's four conditions against the parent's state
snapshot; if any transaction fails, the block is neither inserted nor
buffered and the handler changes nothing. -/
theorem blocks_admit_iff_all_txs_valid (env : Env) (ns : NodeState) (b : Block)
    (hpow : hashB env b ≤ b.header.difficulty)
    (hnew : containsA ns.chain.hash_map (hashB env b) = false)
    (hpar : containsA ns.chain.hash_map b.header.parent = true) :
    (containsA (handleBlocks env ns [b]).chain.hash_map (hashB env b) = true ↔
      ∀ stx ∈ b.content.transactions,
        specTxValid env ((lookupA ns.chain.state_map b.header.parent).getD ⟨[]⟩) stx) ∧
    ((¬ ∀ stx ∈ b.content.transactions,
        specTxValid env ((lookupA ns.chain.state_map b.header.parent).getD ⟨[]⟩) stx) →
      handleBlocks env ns [b] = ⟨ns.chain, ns.mempool, ns.obuf, [], []⟩) := by
  rw [handleBlocks_single]
  cases hall : b.content.transactions.all
      (txCheck env ((lookupA ns.chain.state_map b.header.parent).getD ⟨[]⟩)) with
  | true =>
      have hspec : ∀ stx ∈ b.content.transactions,
          specTxValid env ((lookupA ns.chain.state_map b.header.parent).getD ⟨[]⟩) stx := by
        intro stx hstx
        exact (txCheck_iff_spec env _ stx).mp (List.all_eq_true.mp hall stx hstx)
      rw [processBlock_admit_eq env _ b hpow hnew hpar hall]
      refine ⟨⟨fun _ => hspec, fun _ => ?_⟩, fun hcon => absurd hspec hcon⟩
      exact resolveOrphans_chain_mono env containsA_insertA_self
  | false =>
      have hnspec : ¬ ∀ stx ∈ b.content.transactions,
          specTxValid env ((lookupA ns.chain.state_map b.header.parent).getD ⟨[]⟩) stx := by
        intro hspec
        have htrue : b.content.transactions.all
            (txCheck env ((lookupA ns.chain.state_map b.header.parent).getD ⟨[]⟩)) = true :=
          List.all_eq_true.mpr
            (fun stx hstx => (txCheck_iff_spec env _ stx).mpr (hspec stx hstx))
        rw [hall] at htrue
        cases htrue
      rw [processBlock_invalid_eq env _ b hpow hnew hpar hall]
      exact ⟨by simp [hnew, hnspec], fun _ => rfl⟩

/-- Witness for C3 at a concrete transaction-bearing child of genesis. -/
theorem blocks_admit_iff_all_txs_valid_witness :
    (containsA (handleBlocks env0 ns0 [bTx]).chain.hash_map (hashB env0 bTx) = true ↔
      ∀ stx ∈ bTx.content.transactions,
        specTxValid env0 ((lookupA ns0.chain.state_map bTx.header.parent).getD ⟨[]⟩) stx) ∧
    ((¬ ∀ stx ∈ bTx.content.transactions,
        specTxValid env0 ((lookupA ns0.chain.state_map bTx.header.parent).getD ⟨[]⟩) stx) →
      handleBlocks env0 ns0 [bTx] = ⟨ns0.chain, ns0.mempool, ns0.obuf, [], []⟩) :=
  blocks_admit_iff_all_txs_valid env0 ns0 bTx (by decide) (by decide) (by decide)

/-- C5: immediately after admitting block `b`, the handler runs the orphan
resolution loop starting from `b`'s hash: the handler's final chain, orphan
buffer and accepted-hash list are those of `resolveOrphans` started right
after inserting `b`; each loop iteration whose current hash is a buffer key
inserts the buffered child into the chain unconditionally (no signature or
state re-validation appears in the loop), appends the child's hash to the
accepted list, removes the buffer entry and advances the current hash to the
child's hash, and the loop stops as soon as the current hash is not a buffer
key. -/
theorem blocks_orphan_resolution_loop (env : Env) (ns : NodeState) (b : Block)
    (hpow : hashB env b ≤ b.header.difficulty)
    (hnew : containsA ns.chain.hash_map (hashB env b) = false)
    (hpar : containsA ns.chain.hash_map b.header.parent = true)
    (hall : b.content.transactions.all
      (txCheck env ((lookupA ns.chain.state_map b.header.parent).getD ⟨[]⟩)) = true) :
    ((handleBlocks env ns [b]).chain =
        (resolveOrphans env (chainInsert env ns.chain b) ns.obuf (hashB env b)
          [hashB env b]).1 ∧
      (handleBlocks env ns [b]).obuf =
        (resolveOrphans env (chainInsert env ns.chain b) ns.obuf (hashB env b)
          [hashB env b]).2.1 ∧
      (handleBlocks env ns [b]).new_hashes =
        (resolveOrphans env (chainInsert env ns.chain b) ns.obuf (hashB env b)
          [hashB env b]).2.2) ∧
    (∀ (c : Blockchain) (ob : OrphanBuffer) (ph : Nat) (acc : List Nat),
      lookupA ob.hash_map ph = none → resolveOrphans env c ob ph acc = (c, ob, acc)) ∧
    (∀ (c : Blockchain) (ob : OrphanBuffer) (ph : Nat) (acc : List Nat) (child : Block),
      lookupA ob.hash_map ph = some child →
        resolveOrphans env c ob ph acc =
          resolveOrphans env (chainInsert env c child) ⟨removeA ob.hash_map ph⟩
            (hashB env child) (acc ++ [hashB env child])) := by
  refine ⟨?_, fun c ob ph acc h => resolveOrphans_none env h,
    fun c ob ph acc child h => resolveOrphans_some env h⟩
  rw [handleBlocks_single, processBlock_admit_eq env _ b hpow hnew hpar hall]
  simp

/-- Witness for C5 at a concrete admitted block whose hash keys a buffered
orphan child. -/
theorem blocks_orphan_resolution_loop_witness :
    ((handleBlocks env0 nsObuf [bGood]).chain =
        (resolveOrphans env0 (chainInsert env0 nsObuf.chain bGood) nsObuf.obuf
          (hashB env0 bGood) [hashB env0 bGood]).1 ∧
      (handleBlocks env0 nsObuf [bGood]).obuf =
        (resolveOrphans env0 (chainInsert env0 nsObuf.chain bGood) nsObuf.obuf
          (hashB env0 bGood) [hashB env0 bGood]).2.1 ∧
      (handleBlocks env0 nsObuf [bGood]).new_hashes =
        (resolveOrphans env0 (chainInsert env0 nsObuf.chain bGood) nsObuf.obuf
          (hashB env0 bGood) [hashB env0 bGood]).2.2) ∧
    (∀ (c : Blockchain) (ob : OrphanBuffer) (ph : Nat) (acc : List Nat),
      lookupA ob.hash_map ph = none → resolveOrphans env0 c ob ph acc = (c, ob, acc)) ∧
    (∀ (c : Blockchain) (ob : OrphanBuffer) (ph : Nat) (acc : List Nat) (child : Block),
      lookupA ob.hash_map ph = some child →
        resolveOrphans env0 c ob ph acc =
          resolveOrphans env0 (chainInsert env0 c child) ⟨removeA ob.hash_map ph⟩
            (hashB env0 child) (acc ++ [hashB env0 child])) :=
  blocks_orphan_resolution_loop env0 nsObuf bGood (by decide) (by decide) (by decide)
    (by decide)

/-- C6: after the `Blocks` handler admits block `b`, every transaction of `b`
is removed from the mempool; and a mempool transaction not confirmed by `b`
whose sender exists in the new tip's state snapshot remains in the mempool
exactly when its `account_nonce` is at least the sender's snapshot nonce
(it is removed when strictly smaller). -/
theorem blocks_mempool_eviction (env : Env) (ns : NodeState) (b : Block)
    (hpow : hashB env b ≤ b.header.difficulty)
    (hnew : containsA ns.chain.hash_map (hashB env b) = false)
    (hpar : containsA ns.chain.hash_map b.header.parent = true)
    (hall : b.content.transactions.all
      (txCheck env ((lookupA ns.chain.state_map b.header.parent).getD ⟨[]⟩)) = true)
    (hnd : (ns.mempool.hash_map.map Prod.fst).Nodup) :
    (∀ stx ∈ b.content.transactions,
      containsA (handleBlocks env ns [b]).mempool.hash_map (env.hashTx stx) = false) ∧
    (∀ h tx, (h, tx) ∈ ns.mempool.hash_map →
      (∀ stx ∈ b.content.transactions, env.hashTx stx ≠ h) →
      ∀ pr, lookupA ((lookupA (chainInsert env ns.chain b).state_map
          (chainInsert env ns.chain b).tip).getD ⟨[]⟩).state
          (env.addrOf tx.signer_public_key) = some pr →
        ((h, tx) ∈ (handleBlocks env ns [b]).mempool.hash_map ↔
          pr.1 ≤ tx.t.account_nonce)) := by
  have hmem : (handleBlocks env ns [b]).mempool =
      evictMempool env
        ((lookupA (chainInsert env ns.chain b).state_map
          (chainInsert env ns.chain b).tip).getD ⟨[]⟩)
        (removeBlockTxs env ns.mempool b.content.transactions) := by
    rw [handleBlocks_single, processBlock_admit_eq env _ b hpow hnew hpar hall]
  constructor
  · intro stx hstx
    rw [hmem, containsA_eq_false_iff]
    intro v hv
    unfold evictMempool at hv
    rw [mem_evictLoop] at hv
    have hv1 := (mem_removeBlockTxs env b.content.transactions ns.mempool _).mp hv.1
    exact absurd rfl (hv1.2 stx hstx)
  · intro h tx hmemb hblk pr hpr
    rw [hmem]
    unfold evictMempool
    rw [mem_evictLoop]
    have hm1 : (h, tx) ∈ (removeBlockTxs env ns.mempool b.content.transactions).hash_map :=
      (mem_removeBlockTxs env b.content.transactions ns.mempool _).mpr ⟨hmemb, hblk⟩
    constructor
    · rintro ⟨_, hcond⟩
      have hnlt := hcond (h, tx) hm1 rfl pr hpr
      dsimp only at hnlt
      omega
    · intro hge
      refine ⟨hm1, ?_⟩
      intro q hq hqk pr' hpr'
      have hq0 : q ∈ ns.mempool.hash_map :=
        ((mem_removeBlockTxs env b.content.transactions ns.mempool _).mp hq).1
      have hqe : q = (h, tx) := nodup_keys_eq hnd hq0 hmemb hqk
      subst hqe
      rw [hpr] at hpr'
      cases hpr'
      dsimp only
      omega

/-- Witness for C6 at a concrete admitted block confirming `stx1`, with a
stale (nonce 3), a fresh (nonce 9) and the confirmed transaction pooled. -/
theorem blocks_mempool_eviction_witness :
    (∀ stx ∈ bTx.content.transactions,
      containsA (handleBlocks env0 nsC6 [bTx]).mempool.hash_map (env0.hashTx stx) = false) ∧
    (∀ h tx, (h, tx) ∈ nsC6.mempool.hash_map →
      (∀ stx ∈ bTx.content.transactions, env0.hashTx stx ≠ h) →
      ∀ pr, lookupA ((lookupA (chainInsert env0 nsC6.chain bTx).state_map
          (chainInsert env0 nsC6.chain bTx).tip).getD ⟨[]⟩).state
          (env0.addrOf tx.signer_public_key) = some pr →
        ((h, tx) ∈ (handleBlocks env0 nsC6 [bTx]).mempool.hash_map ↔
          pr.1 ≤ tx.t.account_nonce)) :=
  blocks_mempool_eviction env0 nsC6 bTx (by decide) (by decide) (by decide) (by decide)
    (by decide)

/-- C7: delivering the same block again after it was admitted leaves the
stored-block map unchanged (no second insertion) and yields an empty
accepted-hash list, so no second `NewBlockHashes` broadcast carries its
hash. -/
theorem blocks_duplicate_idempotent (env : Env) (ns : NodeState) (b : Block)
    (hpow : hashB env b ≤ b.header.difficulty)
    (hnew : containsA ns.chain.hash_map (hashB env b) = false)
    (hpar : containsA ns.chain.hash_map b.header.parent = true)
    (hall : b.content.transactions.all
      (txCheck env ((lookupA ns.chain.state_map b.header.parent).getD ⟨[]⟩)) = true) :
    (handleBlocks env
        ⟨(handleBlocks env ns [b]).chain, (handleBlocks env ns [b]).mempool,
          (handleBlocks env ns [b]).obuf⟩ [b]).chain =
      (handleBlocks env ns [b]).chain ∧
    (handleBlocks env
        ⟨(handleBlocks env ns [b]).chain, (handleBlocks env ns [b]).mempool,
          (handleBlocks env ns [b]).obuf⟩ [b]).new_hashes = [] := by
  have hstored : containsA (handleBlocks env ns [b]).chain.hash_map (hashB env b) = true := by
    rw [handleBlocks_single, processBlock_admit_eq env _ b hpow hnew hpar hall]
    exact resolveOrphans_chain_mono env containsA_insertA_self
  have h2 := processBlock_dup_eq env
    ⟨(handleBlocks env ns [b]).chain, (handleBlocks env ns [b]).mempool,
      (handleBlocks env ns [b]).obuf, [], []⟩ b hpow hstored
  refine ⟨?_, ?_⟩
  · show (processBlock env ⟨(handleBlocks env ns [b]).chain, (handleBlocks env ns [b]).mempool,
        (handleBlocks env ns [b]).obuf, [], []⟩ b).chain = (handleBlocks env ns [b]).chain
    rw [h2]
  · show (processBlock env ⟨(handleBlocks env ns [b]).chain, (handleBlocks env ns [b]).mempool,
        (handleBlocks env ns [b]).obuf, [], []⟩ b).new_hashes = []
    rw [h2]

/-- Witness for C7 at a concrete valid child of genesis delivered twice. -/
theorem blocks_duplicate_idempotent_witness :
    (handleBlocks env0
        ⟨(handleBlocks env0 ns0 [bGood]).chain, (handleBlocks env0 ns0 [bGood]).mempool,
          (handleBlocks env0 ns0 [bGood]).obuf⟩ [bGood]).chain =
      (handleBlocks env0 ns0 [bGood]).chain ∧
    (handleBlocks env0
        ⟨(handleBlocks env0 ns0 [bGood]).chain, (handleBlocks env0 ns0 [bGood]).mempool,
          (handleBlocks env0 ns0 [bGood]).obuf⟩ [bGood]).new_hashes = [] :=
  blocks_duplicate_idempotent env0 ns0 bGood (by decide) (by decide) (by decide) (by decide)

/-- C4 evaluation at the failing input: the two-block chain
`genesis ← bGood ← bChild` is delivered in reverse order, one block per
`Blocks` message.  After the message carrying `bGood` both blocks should be
stored and reported, but `bChild` was silently dropped when it arrived (its
unknown-parent case never buffers), so only `bGood` is stored and broadcast. -/
theorem blocks_reverse_chain_incomplete_cex :
    (hashB env0 bChild ≤ bChild.header.difficulty) ∧
      (hashB env0 bGood ≤ bGood.header.difficulty) ∧
      bChild.header.parent = hashB env0 bGood ∧
      bGood.header.parent = hashB env0 g0 ∧
      containsA
        (handleBlocks env0 (step env0 ns0 (Msg.Blocks [bChild])) [bGood]).chain.hash_map
        (hashB env0 bGood) = true ∧
      containsA
        (handleBlocks env0 (step env0 ns0 (Msg.Blocks [bChild])) [bGood]).chain.hash_map
        (hashB env0 bChild) = false ∧
      (handleBlocks env0 (step env0 ns0 (Msg.Blocks [bChild])) [bGood]).new_hashes =
        [hashB env0 bGood] ∧
      (handleBlocks env0 (step env0 ns0 (Msg.Blocks [bChild])) [bGood]).obuf = ⟨[]⟩ := by
  decide

/-- C8: the `NewBlockHashes` handler computes exactly the received hashes
that are not stored-block keys (as a list, the filter of the received list),
and the `GetBlocks` reply is sent exactly when that difference is non-empty,
carrying exactly that difference. -/
theorem newBlockHashes_diff_exact (c : Blockchain) (hashvec : List Nat) :
    handleNewBlockHashes c hashvec = hashvec.filter (fun h => !containsA c.hash_map h) ∧
      (∀ h, h ∈ handleNewBlockHashes c hashvec ↔
        h ∈ hashvec ∧ containsA c.hash_map h = false) ∧
      (newBlockHashesReply c hashvec = none ↔
        hashvec.filter (fun h => !containsA c.hash_map h) = []) ∧
      (∀ l, newBlockHashesReply c hashvec = some l →
        l = hashvec.filter (fun h => !containsA c.hash_map h)) := by
  have h1 : handleNewBlockHashes c hashvec =
      hashvec.filter (fun h => !containsA c.hash_map h) := by
    unfold handleNewBlockHashes
    simpa using foldl_push_filter (fun h => !containsA c.hash_map h) hashvec []
  refine ⟨h1, ?_, ?_, ?_⟩
  · intro h
    rw [h1, List.mem_filter]
    simp
  · unfold newBlockHashesReply
    rw [h1]
    rcases hf : hashvec.filter (fun h => !containsA c.hash_map h) with _ | ⟨x, t⟩
    · simp
    · simp
  · intro l hl
    unfold newBlockHashesReply at hl
    rw [h1] at hl
    rcases hf : hashvec.filter (fun h => !containsA c.hash_map h) with _ | ⟨x, t⟩
    · rw [hf] at hl
      simp at hl
    · rw [hf] at hl
      have h2 : x :: t = l := by simpa using hl
      exact h2.symm

/-- Witness for C8 at the genesis-only chain, with one stored hash (`100`)
and one unknown hash (`555`) announced. -/
theorem newBlockHashes_diff_exact_witness :
    handleNewBlockHashes chain0 [100, 555] =
        ([100, 555] : List Nat).filter (fun h => !containsA chain0.hash_map h) ∧
      (∀ h, h ∈ handleNewBlockHashes chain0 [100, 555] ↔
        h ∈ ([100, 555] : List Nat) ∧ containsA chain0.hash_map h = false) ∧
      (newBlockHashesReply chain0 [100, 555] = none ↔
        ([100, 555] : List Nat).filter (fun h => !containsA chain0.hash_map h) = []) ∧
      (∀ l, newBlockHashesReply chain0 [100, 555] = some l →
        l = ([100, 555] : List Nat).filter (fun h => !containsA chain0.hash_map h)) :=
  newBlockHashes_diff_exact chain0 [100, 555]

theorem transGo_spec (env : Env) :
    ∀ (txs : List SignedTransaction) (m : Mempool) (acc : List Nat),
      (∀ h, containsA (txs.foldl (transStep env) (m, acc)).1.hash_map h = true ↔
        containsA m.hash_map h = true ∨
          ∃ stx ∈ txs, env.verify stx.t stx.signer_public_key stx.signature_vector = true ∧
            env.hashTx stx = h) ∧
      (∀ h, h ∈ (txs.foldl (transStep env) (m, acc)).2 ↔
        h ∈ acc ∨ (containsA m.hash_map h = false ∧
          ∃ stx ∈ txs, env.verify stx.t stx.signer_public_key stx.signature_vector = true ∧
            env.hashTx stx = h)) ∧
      (∀ p ∈ m.hash_map, p ∈ (txs.foldl (transStep env) (m, acc)).1.hash_map) ∧
      (∀ p ∈ (txs.foldl (transStep env) (m, acc)).1.hash_map,
        p ∈ m.hash_map ∨ (p.2 ∈ txs ∧
          env.verify p.2.t p.2.signer_public_key p.2.signature_vector = true ∧
          p.1 = env.hashTx p.2)) := by
  intro txs
  induction txs with
  | nil =>
      intro m acc
      refine ⟨?_, ?_, ?_, ?_⟩ <;> simp
  | cons stx t ih =>
      intro m acc
      rw [List.foldl_cons]
      by_cases hv : env.verify stx.t stx.signer_public_key stx.signature_vector = true
      · by_cases hc : containsA m.hash_map (env.hashTx stx) = true
        · -- already pooled: the step is a no-op
          have hstep : transStep env (m, acc) stx = (m, acc) := by
            unfold transStep
            rw [if_neg (by simp [hc])]
          rw [hstep]
          obtain ⟨ih1, ih2, ih3, ih4⟩ := ih m acc
          refine ⟨?_, ?_, ih3, ?_⟩
          · intro h
            rw [ih1]
            constructor
            · rintro (hm | ⟨s, hs, hsv, hsh⟩)
              · exact Or.inl hm
              · exact Or.inr ⟨s, List.mem_cons_of_mem _ hs, hsv, hsh⟩
            · rintro (hm | ⟨s, hs, hsv, hsh⟩)
              · exact Or.inl hm
              · rcases List.mem_cons.mp hs with hse | hst
                · subst hse
                  exact Or.inl (hsh ▸ hc)
                · exact Or.inr ⟨s, hst, hsv, hsh⟩
          · intro h
            rw [ih2]
            constructor
            · rintro (ha | ⟨hcf, s, hs, hsv, hsh⟩)
              · exact Or.inl ha
              · exact Or.inr ⟨hcf, s, List.mem_cons_of_mem _ hs, hsv, hsh⟩
            · rintro (ha | ⟨hcf, s, hs, hsv, hsh⟩)
              · exact Or.inl ha
              · rcases List.mem_cons.mp hs with hse | hst
                · subst hse
                  rw [hsh] at hc
                  rw [hc] at hcf
                  exact Bool.noConfusion hcf
                · exact Or.inr ⟨hcf, s, hst, hsv, hsh⟩
          · intro p hp
            rcases ih4 p hp with hm | ⟨hpt, hpv, hpk⟩
            · exact Or.inl hm
            · exact Or.inr ⟨List.mem_cons_of_mem _ hpt, hpv, hpk⟩
        · -- new hash with valid signature: inserted
          have hcf : containsA m.hash_map (env.hashTx stx) = false := by
            simpa using hc
          have hstep : transStep env (m, acc) stx =
              (⟨(env.hashTx stx, stx) :: m.hash_map⟩, acc ++ [env.hashTx stx]) := by
            unfold transStep
            rw [if_pos (by simp [hcf, hv])]
            rw [show insertA m.hash_map (env.hashTx stx) stx =
              (env.hashTx stx, stx) :: m.hash_map from insertA_of_not_contains hcf]
          rw [hstep]
          obtain ⟨ih1, ih2, ih3, ih4⟩ :=
            ih ⟨(env.hashTx stx, stx) :: m.hash_map⟩ (acc ++ [env.hashTx stx])
          refine ⟨?_, ?_, ?_, ?_⟩
          · intro h
            rw [ih1]
            have hcons : containsA (⟨(env.hashTx stx, stx) :: m.hash_map⟩ : Mempool).hash_map h
                = true ↔ h = env.hashTx stx ∨ containsA m.hash_map h = true :=
              containsA_cons_iff
            rw [hcons]
            constructor
            · rintro ((hk | hm) | ⟨s, hs, hsv, hsh⟩)
              · exact Or.inr ⟨stx, List.mem_cons_self _ _, hv, hk.symm⟩
              · exact Or.inl hm
              · exact Or.inr ⟨s, List.mem_cons_of_mem _ hs, hsv, hsh⟩
            · rintro (hm | ⟨s, hs, hsv, hsh⟩)
              · exact Or.inl (Or.inr hm)
              · rcases List.mem_cons.mp hs with hse | hst
                · subst hse
                  exact Or.inl (Or.inl hsh.symm)
                · exact Or.inr ⟨s, hst, hsv, hsh⟩
          · intro h
            rw [ih2]
            have hcons : containsA (⟨(env.hashTx stx, stx) :: m.hash_map⟩ : Mempool).hash_map h
                = false ↔ ¬ (h = env.hashTx stx ∨ containsA m.hash_map h = true) := by
              rw [← containsA_cons_iff (v := stx)]
              simp
            constructor
            · rintro (ha | ⟨hcf2, s, hs, hsv, hsh⟩)
              · rcases List.mem_append.mp ha with ha' | ha'
                · exact Or.inl ha'
                · have hk : h = env.hashTx stx := by simpa using ha'
                  exact Or.inr ⟨hk ▸ hcf, stx, List.mem_cons_self _ _, hv, hk.symm⟩
              · rw [hcons] at hcf2
                push_neg at hcf2
                exact Or.inr ⟨by simpa using hcf2.2, s, List.mem_cons_of_mem _ hs, hsv, hsh⟩
            · rintro (ha | ⟨hcf2, s, hs, hsv, hsh⟩)
              · exact Or.inl (List.mem_append.mpr (Or.inl ha))
              · rcases List.mem_cons.mp hs with hse | hst
                · subst hse
                  exact Or.inl (List.mem_append.mpr (Or.inr (by simp [hsh.symm])))
                · by_cases hk : h = env.hashTx stx
                  · exact Or.inl (List.mem_append.mpr (Or.inr (by simp [hk])))
                  · refine Or.inr ⟨?_, s, hst, hsv, hsh⟩
                    rw [hcons]
                    push_neg
                    exact ⟨hk, by simp [hcf2]⟩
          · intro p hp
            exact ih3 p (List.mem_cons_of_mem _ hp)
          · intro p hp
            rcases ih4 p hp with hm | ⟨hpt, hpv, hpk⟩
            · rcases List.mem_cons.mp hm with hpe | hpm
              · refine Or.inr ⟨?_, ?_, ?_⟩
                · rw [hpe]
                  exact List.mem_cons_self _ _
                · rw [hpe]
                  exact hv
                · rw [hpe]
              · exact Or.inl hpm
            · exact Or.inr ⟨List.mem_cons_of_mem _ hpt, hpv, hpk⟩
      · -- invalid signature: the step is a no-op
        have hvf : env.verify stx.t stx.signer_public_key stx.signature_vector = false := by
          simpa using hv
        have hstep : transStep env (m, acc) stx = (m, acc) := by
          unfold transStep
          rw [if_neg (by simp [hvf])]
        rw [hstep]
        obtain ⟨ih1, ih2, ih3, ih4⟩ := ih m acc
        refine ⟨?_, ?_, ih3, ?_⟩
        · intro h
          rw [ih1]
          constructor
          · rintro (hm | ⟨s, hs, hsv, hsh⟩)
            · exact Or.inl hm
            · exact Or.inr ⟨s, List.mem_cons_of_mem _ hs, hsv, hsh⟩
          · rintro (hm | ⟨s, hs, hsv, hsh⟩)
            · exact Or.inl hm
            · rcases List.mem_cons.mp hs with hse | hst
              · subst hse
                rw [hsv] at hvf
                exact Bool.noConfusion hvf
              · exact Or.inr ⟨s, hst, hsv, hsh⟩
        · intro h
          rw [ih2]
          constructor
          · rintro (ha | ⟨hcf2, s, hs, hsv, hsh⟩)
            · exact Or.inl ha
            · exact Or.inr ⟨hcf2, s, List.mem_cons_of_mem _ hs, hsv, hsh⟩
          · rintro (ha | ⟨hcf2, s, hs, hsv, hsh⟩)
            · exact Or.inl ha
            · rcases List.mem_cons.mp hs with hse | hst
              · subst hse
                rw [hsv] at hvf
                exact Bool.noConfusion hvf
              · exact Or.inr ⟨hcf2, s, hst, hsv, hsh⟩
        · intro p hp
          rcases ih4 p hp with hm | ⟨hpt, hpv, hpk⟩
          · exact Or.inl hm
          · exact Or.inr ⟨List.mem_cons_of_mem _ hpt, hpv, hpk⟩

/-- C9: the `Transactions` handler inserts exactly the received transactions
whose signature verifies and whose hash is not already pooled (each keyed by
its own hash, never removing an existing entry, with no balance, nonce or
sender-existence check involved), and the `NewTransactionHashes` broadcast is
emitted iff some transaction was newly inserted, carrying exactly the newly
inserted hashes. -/
theorem transactions_admission_exact (env : Env) (m : Mempool)
    (txs : List SignedTransaction) :
    (∀ h, containsA (handleTransactions env m txs).1.hash_map h = true ↔
      containsA m.hash_map h = true ∨
        ∃ stx ∈ txs, env.verify stx.t stx.signer_public_key stx.signature_vector = true ∧
          env.hashTx stx = h) ∧
    (∀ h, h ∈ (handleTransactions env m txs).2 ↔
      containsA m.hash_map h = false ∧
        ∃ stx ∈ txs, env.verify stx.t stx.signer_public_key stx.signature_vector = true ∧
          env.hashTx stx = h) ∧
    (∀ p ∈ m.hash_map, p ∈ (handleTransactions env m txs).1.hash_map) ∧
    (∀ p ∈ (handleTransactions env m txs).1.hash_map,
      p ∈ m.hash_map ∨ (p.2 ∈ txs ∧
        env.verify p.2.t p.2.signer_public_key p.2.signature_vector = true ∧
        p.1 = env.hashTx p.2)) ∧
    (transactionsBroadcast env m txs = none ↔ (handleTransactions env m txs).2 = []) ∧
    (∀ l, transactionsBroadcast env m txs = some l → l = (handleTransactions env m txs).2) := by
  obtain ⟨h1, h2, h3, h4⟩ := transGo_spec env txs m []
  refine ⟨h1, ?_, h3, h4, ?_, ?_⟩
  · intro h
    rw [show (handleTransactions env m txs).2 = (txs.foldl (transStep env) (m, [])).2 from rfl,
      h2 h]
    simp
  · unfold transactionsBroadcast
    rcases hn : (handleTransactions env m txs).2 with _ | ⟨x, t⟩
    · simp [hn]
    · simp [hn]
  · intro l hl
    unfold transactionsBroadcast at hl
    rcases hn : (handleTransactions env m txs).2 with _ | ⟨x, t⟩
    · rw [hn] at hl
      simp at hl
    · rw [hn] at hl
      have h2' : x :: t = l := by simpa using hl
      exact h2'.symm

/-- Witness for C9 at a concrete batch holding a verifying new transaction,
a duplicate of it, and a transaction with a bad signature, against a mempool
already holding `txFresh`. -/
theorem transactions_admission_exact_witness :
    (∀ h, containsA (handleTransactions env0 ⟨[(7091, txFresh)]⟩
        [stx1, stx1, ⟨⟨9, 8, 1, 1⟩, [9], [2]⟩]).1.hash_map h = true ↔
      containsA (⟨[(7091, txFresh)]⟩ : Mempool).hash_map h = true ∨
        ∃ stx ∈ [stx1, stx1, (⟨⟨9, 8, 1, 1⟩, [9], [2]⟩ : SignedTransaction)],
          env0.verify stx.t stx.signer_public_key stx.signature_vector = true ∧
          env0.hashTx stx = h) ∧
    (∀ h, h ∈ (handleTransactions env0 ⟨[(7091, txFresh)]⟩
        [stx1, stx1, ⟨⟨9, 8, 1, 1⟩, [9], [2]⟩]).2 ↔
      containsA (⟨[(7091, txFresh)]⟩ : Mempool).hash_map h = false ∧
        ∃ stx ∈ [stx1, stx1, (⟨⟨9, 8, 1, 1⟩, [9], [2]⟩ : SignedTransaction)],
          env0.verify stx.t stx.signer_public_key stx.signature_vector = true ∧
          env0.hashTx stx = h) ∧
    (∀ p ∈ (⟨[(7091, txFresh)]⟩ : Mempool).hash_map,
      p ∈ (handleTransactions env0 ⟨[(7091, txFresh)]⟩
        [stx1, stx1, ⟨⟨9, 8, 1, 1⟩, [9], [2]⟩]).1.hash_map) ∧
    (∀ p ∈ (handleTransactions env0 ⟨[(7091, txFresh)]⟩
        [stx1, stx1, ⟨⟨9, 8, 1, 1⟩, [9], [2]⟩]).1.hash_map,
      p ∈ (⟨[(7091, txFresh)]⟩ : Mempool).hash_map ∨
        (p.2 ∈ [stx1, stx1, (⟨⟨9, 8, 1, 1⟩, [9], [2]⟩ : SignedTransaction)] ∧
          env0.verify p.2.t p.2.signer_public_key p.2.signature_vector = true ∧
          p.1 = env0.hashTx p.2)) ∧
    (transactionsBroadcast env0 ⟨[(7091, txFresh)]⟩
        [stx1, stx1, ⟨⟨9, 8, 1, 1⟩, [9], [2]⟩] = none ↔
      (handleTransactions env0 ⟨[(7091, txFresh)]⟩
        [stx1, stx1, ⟨⟨9, 8, 1, 1⟩, [9], [2]⟩]).2 = []) ∧
    (∀ l, transactionsBroadcast env0 ⟨[(7091, txFresh)]⟩
        [stx1, stx1, ⟨⟨9, 8, 1, 1⟩, [9], [2]⟩] = some l →
      l = (handleTransactions env0 ⟨[(7091, txFresh)]⟩
        [stx1, stx1, ⟨⟨9, 8, 1, 1⟩, [9], [2]⟩]).2) :=
  transactions_admission_exact env0 ⟨[(7091, txFresh)]⟩
    [stx1, stx1, ⟨⟨9, 8, 1, 1⟩, [9], [2]⟩]

theorem processBlock_mempool_subset (env : Env) (s : BState) (b : Block) :
    ∀ p ∈ (processBlock env s b).mempool.hash_map, p ∈ s.mempool.hash_map := by
  intro p hp
  by_cases hpow : hashB env b ≤ b.header.difficulty
  · by_cases hnew : containsA s.chain.hash_map (hashB env b) = true
    · rw [processBlock_dup_eq env s b hpow hnew] at hp
      exact hp
    · have hnew' : containsA s.chain.hash_map (hashB env b) = false := by simpa using hnew
      by_cases hpar : containsA s.chain.hash_map b.header.parent = true
      · cases hall : b.content.transactions.all
            (txCheck env ((lookupA s.chain.state_map b.header.parent).getD ⟨[]⟩)) with
        | true =>
            rw [processBlock_admit_eq env s b hpow hnew' hpar hall] at hp
            dsimp only at hp
            unfold evictMempool at hp
            rw [mem_evictLoop] at hp
            exact ((mem_removeBlockTxs env _ _ p).mp hp.1).1
        | false =>
            rw [processBlock_invalid_eq env s b hpow hnew' hpar hall] at hp
            exact hp
      · have hpar' : containsA s.chain.hash_map b.header.parent = false := by simpa using hpar
        rw [processBlock_noparent_eq env s b hpow hnew' hpar'] at hp
        exact hp
  · rw [processBlock_pow_fail env s b (Nat.not_le.mp hpow)] at hp
    exact hp

theorem foldBlocks_mempool_subset (env : Env) :
    ∀ (blocks : List Block) (s : BState) (p : Nat × SignedTransaction),
      p ∈ (blocks.foldl (processBlock env) s).mempool.hash_map → p ∈ s.mempool.hash_map := by
  intro blocks
  induction blocks with
  | nil =>
      intro s p hp
      exact hp
  | cons b t ih =>
      intro s p hp
      rw [List.foldl_cons] at hp
      exact processBlock_mempool_subset env s b p (ih _ p hp)

/-- Mempool key consistency: every stored pair's key is the hash of the
signed transaction stored under it. -/
def MempoolKeyed (env : Env) (m : Mempool) : Prop :=
  ∀ p ∈ m.hash_map, p.1 = env.hashTx p.2

/-- C10: every message handler preserves mempool key consistency (the
`Transactions` handler inserts only under the transaction's own hash, the
`Blocks` handler only removes entries, all other handlers leave the mempool
alone), so the invariant holds in every state reachable from an empty
mempool. -/
theorem mempool_key_consistency (env : Env) :
    (∀ (ns : NodeState) (msg : Msg), MempoolKeyed env ns.mempool →
      MempoolKeyed env (step env ns msg).mempool) ∧
    (∀ (c : Blockchain) (ob : OrphanBuffer) (msgs : List Msg),
      MempoolKeyed env (runMsgs env ⟨c, ⟨[]⟩, ob⟩ msgs).mempool) := by
  have hpres : ∀ (ns : NodeState) (msg : Msg), MempoolKeyed env ns.mempool →
      MempoolKeyed env (step env ns msg).mempool := by
    intro ns msg hk
    cases msg with
    | Blocks blockvec =>
        intro p hp
        have hp2 : p ∈ (handleBlocks env ns blockvec).mempool.hash_map := hp
        exact hk p (foldBlocks_mempool_subset env blockvec
          ⟨ns.chain, ns.mempool, ns.obuf, [], []⟩ p hp2)
    | Transactions txs =>
        intro p hp
        have hp2 : p ∈ (handleTransactions env ns.mempool txs).1.hash_map := hp
        obtain ⟨-, -, -, h4⟩ := transGo_spec env txs ns.mempool []
        rcases h4 p hp2 with hm | ⟨-, -, hpk⟩
        · exact hk p hm
        · exact hpk
    | Ping n => exact hk
    | Pong n => exact hk
    | NewBlockHashes l => exact hk
    | GetBlocks l => exact hk
    | NewTransactionHashes l => exact hk
    | GetTransactions l => exact hk
  refine ⟨hpres, ?_⟩
  intro c ob msgs
  have hrun : ∀ (ms : List Msg) (ns : NodeState), MempoolKeyed env ns.mempool →
      MempoolKeyed env (runMsgs env ns ms).mempool := by
    intro ms
    induction ms with
    | nil =>
        intro ns h
        exact h
    | cons msg rest ih =>
        intro ns h
        exact ih _ (hpres ns msg h)
  exact hrun msgs ⟨c, ⟨[]⟩, ob⟩ (fun p hp => absurd hp (List.not_mem_nil p))

/-- Witness for C10: preservation applied at a concrete state whose mempool
holds three correctly keyed transactions, dispatching a `Transactions`
message. -/
theorem mempool_key_consistency_witness :
    MempoolKeyed env0 (step env0 nsC6 (Msg.Transactions [stx1])).mempool :=
  (mempool_key_consistency env0).1 nsC6 (Msg.Transactions [stx1])
    (by unfold MempoolKeyed; decide)

end Worker
